import Mathlib

/-!
Shallow embedding of the MTG_Collector ingest pipeline (`main.py`,
`scryfall_drive_db/prefetch.py`, `scryfall_drive_db/db_manager.py`,
`scripts/update_prices.py`) and proofs about it.

Remote calls (`ScryfallClient.get_card`) are modelled by oracle functions:
`none` models the call raising an exception, `some js` models a successful
JSON response.  Python `float(...)` string parsing is modelled by a
parameter `pf : String → Option ℚ` (`none` models `float` raising, or the
subsequent `int()` raising on a non-finite value).  Python `str.strip` and
`str.lower` are modelled by the executable functions `pystrip` and
`pylower` below (ASCII, which covers every string the program compares
against).
-/

namespace MTG

/-- Python `str.strip()`: drop leading and trailing whitespace. -/
def pystrip (s : String) : String :=
  ⟨((s.data.dropWhile Char.isWhitespace).reverse.dropWhile Char.isWhitespace).reverse⟩

/-- Lower-case one character (ASCII range, as the program only compares
against ASCII literals). -/
def pycharLower (c : Char) : Char :=
  if 'A' ≤ c ∧ c ≤ 'Z' then Char.ofNat (c.toNat + 32) else c

/-- Python `str.lower()`. -/
def pylower (s : String) : String := ⟨s.data.map pycharLower⟩

/-- Lookup key: (set_code, collector_number, language). -/
abbrev Key := String × String × String

/-- A JSON price value as found in a Scryfall price table: JSON null, a
string, or a number. -/
inductive PVal where
  | pnull : PVal
  | pstr : String → PVal
  | pnum : ℚ → PVal
deriving DecidableEq

/-- The "prices" object of a card JSON; each finish field may be absent. -/
structure Prices where
  usd : Option PVal
  usd_foil : Option PVal
  usd_etched : Option PVal
deriving DecidableEq

/-- A fetched card JSON, restricted to the fields the program reads. -/
structure CardJs where
  name : String
  color_identity : List String
  prices : Prices
deriving DecidableEq

/-- Python `int(...)` applied to a float: truncation toward zero. -/
def pytrunc (q : ℚ) : ℤ := if 0 ≤ q then ⌊q⌋ else ⌈q⌉

/-- `parse_quantity` from `main.py`.  Python `int(float(v))` is modelled by
`pf` followed by `pytrunc`; `pf v = none` models the `except` branch
(unparseable string, or a non-finite float making `int` raise). -/
def parse_quantity (pf : String → Option ℚ) (value : Option String) : ℤ :=
  match value with
  | none => 1
  | some s =>
    let v := pystrip s
    if v = "" then 1
    else
      match pf v with
      | none => 1
      | some q => max (pytrunc q) 0

/-- Python `x or d` for an optional string (`None` and `""` are falsy). -/
def pyor (v : Option String) (d : String) : String :=
  match v with
  | none => d
  | some s => if s = "" then d else s

/-- The final step of price extraction in `pick_price_from_json`:
`float(price) if price not in (None, "", "null") else None`, with the
`except` branch returning `None`. -/
def priceToFloat (pf : String → Option ℚ) : Option PVal → Option ℚ
  | none => none
  | some .pnull => none
  | some (.pstr s) => if s = "" ∨ s = "null" then none else pf s
  | some (.pnum q) => some q

/-- `pick_price_from_json` from `main.py`. -/
def pick_price_from_json (pf : String → Option ℚ) (json : CardJs)
    (foil_value : Option String) : Option ℚ :=
  let prices := json.prices
  let fv := pylower (pystrip (pyor foil_value "normal"))
  let price :=
    if fv = "foil" then prices.usd_foil
    else if fv = "etched" then prices.usd_etched
    else prices.usd
  priceToFloat pf price

theorem max_pytrunc_eq_max_floor (q : ℚ) : max (pytrunc q) 0 = max ⌊q⌋ 0 := by
  unfold pytrunc
  by_cases h : 0 ≤ q
  · simp [h]
  · push_neg at h
    have h1 : (⌈q⌉ : ℤ) ≤ 0 := Int.ceil_le.mpr (by exact_mod_cast h.le)
    have h2 : (⌊q⌋ : ℤ) ≤ 0 := le_trans (Int.floor_le_ceil q) h1
    simp [h.not_le, max_eq_right h1, max_eq_right h2]

/-- C9: quantity parsing returns 1 when the field is missing or blank,
returns 1 when numeric parsing fails, and otherwise returns the parsed
value floored and clamped to be non-negative; the result is always a
non-negative integer (totality of the Lean function models "never
raises"). -/
theorem parse_quantity_spec (pf : String → Option ℚ) (v : Option String) :
    0 ≤ parse_quantity pf v
    ∧ (v = none → parse_quantity pf v = 1)
    ∧ (∀ s, v = some s → pystrip s = "" → parse_quantity pf v = 1)
    ∧ (∀ s, v = some s → pystrip s ≠ "" → pf (pystrip s) = none → parse_quantity pf v = 1)
    ∧ (∀ s q, v = some s → pystrip s ≠ "" → pf (pystrip s) = some q →
        parse_quantity pf v = max ⌊q⌋ 0) := by
  refine ⟨?_, ?_, ?_, ?_, ?_⟩
  · match v with
    | none => simp [parse_quantity]
    | some s =>
      simp only [parse_quantity]
      by_cases h : pystrip s = ""
      · simp [h]
      · simp only [h, if_false]
        match hpf : pf (pystrip s) with
        | none => simp
        | some q => simp [le_max_right]
  · intro h; subst h; rfl
  · intro s hv h; subst hv; simp [parse_quantity, h]
  · intro s hv h hpf; subst hv; simp [parse_quantity, h, hpf]
  · intro s q hv h hpf
    subst hv
    simp [parse_quantity, h, hpf, max_pytrunc_eq_max_floor]

/-- Witness for `parse_quantity_spec` at a concrete input. -/
theorem parse_quantity_spec_witness :
    pystrip " 2.5 " ≠ ""
    ∧ (fun _ : String => some ((5 : ℚ)/2)) (pystrip " 2.5 ") = some ((5 : ℚ)/2)
    ∧ parse_quantity (fun _ => some ((5 : ℚ)/2)) (some " 2.5 ") = max ⌊(5 : ℚ)/2⌋ 0 := by
  refine ⟨by decide, rfl, ?_⟩
  exact (parse_quantity_spec (fun _ => some ((5 : ℚ)/2)) (some " 2.5 ")).2.2.2.2
    " 2.5 " ((5 : ℚ)/2) rfl (by decide) rfl

/-- C8: price selection by finish value.  After defaulting a missing/blank
finish to "normal" and trimming and lower-casing, "foil" selects the foil
price field, "etched" the etched field, anything else the normal field;
the raw-value step `priceToFloat` yields `none` for a missing field, a
JSON null, the strings "" and "null", and any string the float parser
rejects.  Totality of the Lean function models "never raises". -/
theorem pick_price_spec (pf : String → Option ℚ) (js : CardJs) (fv : Option String) :
    ((fv = none ∨ fv = some "") →
        pick_price_from_json pf js fv = priceToFloat pf js.prices.usd)
    ∧ (∀ s, fv = some s → pylower (pystrip s) = "foil" →
        pick_price_from_json pf js fv = priceToFloat pf js.prices.usd_foil)
    ∧ (∀ s, fv = some s → pylower (pystrip s) = "etched" →
        pick_price_from_json pf js fv = priceToFloat pf js.prices.usd_etched)
    ∧ (∀ s, fv = some s → pylower (pystrip s) ≠ "foil" → pylower (pystrip s) ≠ "etched" →
        pick_price_from_json pf js fv = priceToFloat pf js.prices.usd)
    ∧ (priceToFloat pf none = none ∧ priceToFloat pf (some PVal.pnull) = none
       ∧ priceToFloat pf (some (PVal.pstr "")) = none
       ∧ priceToFloat pf (some (PVal.pstr "null")) = none
       ∧ (∀ s, pf s = none → priceToFloat pf (some (PVal.pstr s)) = none)) := by
  have hn1 : pylower (pystrip "normal") ≠ "foil" := by decide
  have hn2 : pylower (pystrip "normal") ≠ "etched" := by decide
  refine ⟨?_, ?_, ?_, ?_, ?_, ?_, ?_, ?_, ?_⟩
  · rintro (h | h) <;> subst h <;> simp [pick_price_from_json, pyor, hn1, hn2]
  · intro s hv h
    subst hv
    have hs : s ≠ "" := by
      intro he; subst he; exact absurd h (by decide)
    simp [pick_price_from_json, pyor, hs, h]
  · intro s hv h
    subst hv
    have hs : s ≠ "" := by
      intro he; subst he; exact absurd h (by decide)
    have h1 : pylower (pystrip s) ≠ "foil" := by rw [h]; decide
    simp [pick_price_from_json, pyor, hs, h, h1]
  · intro s hv h1 h2
    subst hv
    by_cases hs : s = ""
    · subst hs; simp [pick_price_from_json, pyor, hn1, hn2]
    · simp [pick_price_from_json, pyor, hs, h1, h2]
  · rfl
  · rfl
  · rfl
  · rfl
  · intro s h; simp [priceToFloat, h]

/-- Witness for `pick_price_spec` at a concrete input: finish " FOIL "
selects the foil field. -/
theorem pick_price_spec_witness :
    pylower (pystrip " FOIL ") = "foil"
    ∧ pick_price_from_json (fun _ => none)
        ⟨"Card", [], ⟨none, some (PVal.pnum 3), none⟩⟩ (some " FOIL ")
      = priceToFloat (fun _ => none) (some (PVal.pnum 3)) := by
  refine ⟨by decide, ?_⟩
  exact (pick_price_spec (fun _ => none)
    ⟨"Card", [], ⟨none, some (PVal.pnum 3), none⟩⟩ (some " FOIL ")).2.1
    " FOIL " rfl (by decide)

/-! ## `scryfall_drive_db/prefetch.py` -/

/-- Observable outcome of one `_fetch_one` invocation: the value returned
for the key, the sequence of back-off sleeps performed (in seconds), the
number of warning-level diagnostics emitted, and the number of
`scry.get_card` calls made.  The oracle argument `o` gives the outcome of
the call made while `attempt` has a given value (`none` = exception). -/
structure FetchOneResult where
  result : Option CardJs
  sleeps : List ℚ
  warnings : Nat
  calls : Nat
deriving DecidableEq

/-- Body of the `while attempt <= max_retries` loop of `_fetch_one`.  The
`fuel` argument only bounds the recursion; `fuel = max_retries + 1`
suffices since `attempt` increases by 1 each iteration. -/
def fetchOneGo (o : Nat → Option CardJs) (max_retries : Nat) (backoff : ℚ) :
    Nat → Nat → FetchOneResult
  | _, 0 => ⟨none, [], 0, 0⟩
  | attempt, fuel+1 =>
    if attempt ≤ max_retries then
      match o attempt with
      | some js => ⟨some js, [], 0, 1⟩
      | none =>
        if max_retries < attempt + 1 then ⟨none, [], 1, 1⟩
        else
          let r := fetchOneGo o max_retries backoff (attempt + 1) fuel
          ⟨r.result, backoff * ((attempt + 1 : Nat) : ℚ) :: r.sleeps, r.warnings, r.calls + 1⟩
    else ⟨none, [], 0, 0⟩

/-- `_fetch_one` from `prefetch.py` (the returned key is omitted: it is
always the argument key). -/
def fetch_one (o : Nat → Option CardJs) (max_retries : Nat) (backoff : ℚ) :
    FetchOneResult :=
  fetchOneGo o max_retries backoff 0 (max_retries + 1)

/-- Key normalization in `prefetch_cards`:
`(str(k[0]).strip(), str(k[1]).strip(), (k[2] or "").strip())`. -/
def normKey (k : Key) : Key := (pystrip k.1, pystrip k.2.1, pystrip k.2.2)

/-- The dedup-preserving-first-occurrence loop of `prefetch_cards` building
`unique_keys` from the input iterable (`seen` is the accumulator set). -/
def dedupNormGo (seen : List Key) : List Key → List Key
  | [] => []
  | k :: ks =>
    let n := normKey k
    if n ∈ seen then dedupNormGo seen ks
    else n :: dedupNormGo (n :: seen) ks

/-- Dictionary lookup on an association list (Python `dict` access). -/
def lookupKey {α : Type} : List (Key × α) → Key → Option α
  | [], _ => none
  | (k, v) :: rest, key => if k = key then some v else lookupKey rest key

/-- Result of `prefetch_cards`: the returned cache, the list of keys for
which `_fetch_one` was invoked, and the total number of warnings emitted. -/
structure PrefetchResult where
  cache : List (Key × Option CardJs)
  invoked : List Key
  warnings : Nat

/-- `prefetch_cards` from `prefetch.py`, as a sequential model of the
thread pool: results land in a key-addressed cache, so the completion
order of the workers is not observable in the returned value.  The oracle
`o k i` gives the outcome of the call made for key `k` while `_fetch_one`'s
`attempt` counter equals `i`. -/
def prefetch_cards (o : Key → Nat → Option CardJs) (keys : List Key)
    (max_retries : Nat) (backoff : ℚ) : PrefetchResult :=
  let unique_keys := dedupNormGo [] keys
  { cache := unique_keys.map (fun k => (k, (fetch_one (o k) max_retries backoff).result))
    invoked := unique_keys
    warnings := (unique_keys.map (fun k => (fetch_one (o k) max_retries backoff).warnings)).sum }

theorem mem_dedupNormGo {x : Key} :
    ∀ (ks : List Key) (seen : List Key), x ∈ dedupNormGo seen ks →
      x ∉ seen ∧ x ∈ ks.map normKey := by
  intro ks
  induction ks with
  | nil => intro seen h; simp [dedupNormGo] at h
  | cons k ks ih =>
    intro seen h
    simp only [dedupNormGo] at h
    by_cases hm : normKey k ∈ seen
    · simp only [hm, if_true] at h
      obtain ⟨h1, h2⟩ := ih seen h
      exact ⟨h1, by simp [h2]⟩
    · simp only [hm, if_false, List.mem_cons] at h
      rcases h with h | h
      · subst h; exact ⟨hm, by simp⟩
      · obtain ⟨h1, h2⟩ := ih (normKey k :: seen) h
        refine ⟨fun hc => h1 (by simp [hc]), by simp [h2]⟩

theorem nodup_dedupNormGo :
    ∀ (ks : List Key) (seen : List Key), (dedupNormGo seen ks).Nodup := by
  intro ks
  induction ks with
  | nil => intro seen; simp [dedupNormGo]
  | cons k ks ih =>
    intro seen
    simp only [dedupNormGo]
    by_cases hm : normKey k ∈ seen
    · simp only [hm, if_true]; exact ih seen
    · simp only [hm, if_false, List.nodup_cons]
      refine ⟨fun hc => ?_, ih _⟩
      have := (mem_dedupNormGo ks (normKey k :: seen) hc).1
      simp at this

theorem covered_dedupNormGo {k : Key} :
    ∀ (ks : List Key) (seen : List Key), k ∈ ks →
      normKey k ∈ seen ∨ normKey k ∈ dedupNormGo seen ks := by
  intro ks
  induction ks with
  | nil => intro seen h; simp at h
  | cons a ks ih =>
    intro seen h
    simp only [dedupNormGo]
    rcases List.mem_cons.mp h with h | h
    · subst h
      by_cases hm : normKey k ∈ seen
      · exact Or.inl hm
      · simp [hm]
    · by_cases hm : normKey a ∈ seen
      · simp only [hm, if_true]; exact ih seen h
      · simp only [hm, if_false]
        rcases ih (normKey a :: seen) h with h1 | h1
        · rcases List.mem_cons.mp h1 with h2 | h2
          · exact Or.inr (by simp [h2])
          · exact Or.inl h2
        · exact Or.inr (by simp [h1])

theorem lookupKey_map_of_mem {α : Type} (f : Key → α) {k : Key} :
    ∀ (l : List Key), k ∈ l →
      lookupKey (l.map (fun x => (x, f x))) k = some (f k) := by
  intro l
  induction l with
  | nil => intro h; simp at h
  | cons a l ih =>
    intro h
    simp only [List.map_cons, lookupKey]
    by_cases ha : a = k
    · subst ha; simp
    · simp only [ha, if_false]
      rcases List.mem_cons.mp h with h | h
      · exact absurd h.symm ha
      · exact ih h

/-- C3: for any input list of keys, `prefetch_cards` invokes `_fetch_one`
at most once per distinct normalized key — the invoked list has no
duplicates and every invoked key is a normalized input key, so the number
of invocations is at most the number K of distinct normalized keys — and
the returned cache holds an entry (a record on success, `none` on
failure) for the normalized key of every input key: the bulk operation
returns only after every submitted key has resolved. -/
theorem prefetch_cards_spec (o : Key → Nat → Option CardJs) (keys : List Key)
    (max_retries : Nat) (backoff : ℚ) :
    (prefetch_cards o keys max_retries backoff).invoked.Nodup
    ∧ (∀ k ∈ (prefetch_cards o keys max_retries backoff).invoked, k ∈ keys.map normKey)
    ∧ (prefetch_cards o keys max_retries backoff).invoked.length
        ≤ (keys.map normKey).dedup.length
    ∧ (∀ k ∈ keys,
        lookupKey (prefetch_cards o keys max_retries backoff).cache (normKey k)
          = some (fetch_one (o (normKey k)) max_retries backoff).result) := by
  have hnd : (dedupNormGo [] keys).Nodup := nodup_dedupNormGo keys []
  have hsub : ∀ k ∈ dedupNormGo [] keys, k ∈ keys.map normKey :=
    fun k hk => (mem_dedupNormGo keys [] hk).2
  refine ⟨hnd, hsub, ?_, ?_⟩
  · have h1 : List.Subperm (dedupNormGo [] keys) ((keys.map normKey).dedup) :=
      hnd.subperm (fun x hx => List.mem_dedup.mpr (hsub x hx))
    exact h1.length_le
  · intro k hk
    have hmem : normKey k ∈ dedupNormGo [] keys := by
      rcases covered_dedupNormGo keys [] hk with h | h
      · simp at h
      · exact h
    exact lookupKey_map_of_mem _ (dedupNormGo [] keys) hmem

/-- Witness for `prefetch_cards_spec`: two raw keys normalizing to the
same key resolve to a single cached entry. -/
theorem prefetch_cards_spec_witness :
    ((" znr ", "1", "") : Key) ∈ [((" znr ", "1", "") : Key), ("znr", " 1 ", "")]
    ∧ lookupKey (prefetch_cards (fun _ _ => none)
        [(" znr ", "1", ""), ("znr", " 1 ", "")] 3 1).cache (normKey (" znr ", "1", ""))
      = some (fetch_one ((fun _ _ => (none : Option CardJs)) (normKey (" znr ", "1", ""))) 3 1).result := by
  refine ⟨by decide, ?_⟩
  exact (prefetch_cards_spec (fun _ _ => none)
    [(" znr ", "1", ""), ("znr", " 1 ", "")] 3 1).2.2.2 (" znr ", "1", "") (by decide)

theorem fetchOneGo_calls_le (o : Nat → Option CardJs) (mr : Nat) (b : ℚ) :
    ∀ (fuel attempt : Nat), (fetchOneGo o mr b attempt fuel).calls ≤ mr + 1 - attempt := by
  intro fuel
  induction fuel with
  | zero => intro attempt; simp [fetchOneGo]
  | succ fuel ih =>
    intro attempt
    simp only [fetchOneGo]
    by_cases h : attempt ≤ mr
    · rw [if_pos h]
      cases ho : o attempt with
      | some js => simp; omega
      | none =>
        by_cases h2 : mr < attempt + 1
        · rw [if_pos h2]; simp; omega
        · rw [if_neg h2]
          have := ih (attempt + 1)
          simp only []
          omega
    · rw [if_neg h]; simp

theorem fetchOneGo_exhaust (o : Nat → Option CardJs) (mr : Nat) (b : ℚ) :
    ∀ (fuel attempt : Nat), attempt ≤ mr → mr + 1 - attempt ≤ fuel →
      (∀ i, attempt ≤ i → i ≤ mr → o i = none) →
      fetchOneGo o mr b attempt fuel
        = ⟨none, (List.range (mr - attempt)).map (fun j => b * ((attempt + j + 1 : Nat) : ℚ)),
           1, mr + 1 - attempt⟩ := by
  intro fuel
  induction fuel with
  | zero => intro attempt h1 h2 _; omega
  | succ fuel ih =>
    intro attempt h1 h2 ho
    simp only [fetchOneGo, if_pos h1, ho attempt le_rfl h1]
    by_cases h3 : mr < attempt + 1
    · rw [if_pos h3]
      have h4 : mr - attempt = 0 := by omega
      have h5 : mr + 1 - attempt = 1 := by omega
      simp [h4, h5]
    · rw [if_neg h3]
      rw [ih (attempt + 1) (by omega) (by omega) (fun i hi1 hi2 => ho i (by omega) hi2)]
      have hr : mr - attempt = (mr - (attempt + 1)) + 1 := by omega
      have hsleeps :
          (List.range (mr - attempt)).map (fun j => b * ((attempt + j + 1 : Nat) : ℚ))
            = b * ((attempt + 1 : Nat) : ℚ)
              :: (List.range (mr - (attempt + 1))).map
                  (fun j => b * ((attempt + 1 + j + 1 : Nat) : ℚ)) := by
        rw [hr, List.range_succ_eq_map, List.map_cons, List.map_map]
        congr 1
        apply List.map_congr_left
        intro a _
        simp only [Function.comp_apply, Nat.succ_eq_add_one]
        push_cast
        ring
      rw [hsleeps]
      have hc : mr + 1 - (attempt + 1) + 1 = mr + 1 - attempt := by omega
      simp [hc]
      omega

/-- C4: the per-key lookup `_fetch_one` makes at most `max_retries + 1`
remote calls (one initial call plus up to `max_retries` retries); when
every call fails it sleeps `backoff * n` seconds before retry number
`n = 1, ..., max_retries`, records a null result for the key, and emits
exactly one warning-level diagnostic.  Totality of the Lean function
models that no exception propagates to the caller. -/
theorem fetch_one_spec (o : Nat → Option CardJs) (max_retries : Nat) (backoff : ℚ) :
    (fetch_one o max_retries backoff).calls ≤ max_retries + 1
    ∧ ((∀ i, i ≤ max_retries → o i = none) →
        fetch_one o max_retries backoff
          = ⟨none, (List.range max_retries).map (fun j => backoff * ((j + 1 : Nat) : ℚ)),
             1, max_retries + 1⟩) := by
  constructor
  · have := fetchOneGo_calls_le o max_retries backoff (max_retries + 1) 0
    simpa [fetch_one] using this
  · intro ho
    have := fetchOneGo_exhaust o max_retries backoff (max_retries + 1) 0
      (by omega) (by omega) (fun i _ h2 => ho i h2)
    simpa [fetch_one] using this

/-- Witness for `fetch_one_spec`: three straight failures with
`max_retries = 2` give two back-off sleeps, a null result and one
warning. -/
theorem fetch_one_spec_witness :
    (∀ i, i ≤ 2 → (fun _ : Nat => (none : Option CardJs)) i = none)
    ∧ fetch_one (fun _ => none) 2 ((1 : ℚ)/4)
        = ⟨none, (List.range 2).map (fun j => ((1 : ℚ)/4) * ((j + 1 : Nat) : ℚ)), 1, 2 + 1⟩ := by
  refine ⟨fun i _ => rfl, ?_⟩
  exact (fetch_one_spec (fun _ => none) 2 ((1 : ℚ)/4)).2 (fun i _ => rfl)

/-! ## `main.py`: the append orchestrator (`process_append`) -/

/-- One parsed CSV data row after column resolution: the values of the
five resolved columns (`row.get(col)`).  `none` models a missing cell or
an unresolved column. -/
structure Row where
  set_code : Option String
  collector_number : Option String
  lang : Option String
  foil : Option String
  qty : Option String
deriving DecidableEq

/-- One inventory-entry draft: the dict appended to `batch`. -/
structure Entry where
  set_code : String
  collector_number : String
  lang : String
  name : String
  color_identity : List String
  price_usd : Option ℚ
  location : String
deriving DecidableEq

/-- State of the `process_append` row loop.  `store` is the list of rows
the DB has received via `add_entries`, in insertion order.  `calls`,
`warnings` and `skippedUnits` are observation ledgers: `calls` records
each on-demand `scry.get_card` call as (key, success?); `warnings` counts
`logger.warning` events inside the loop; `skippedUnits` counts the
quantity units of rows skipped at the two cache-miss / fetch-failure
sites (exactly the skip sites at which the code also advances
`processed`). -/
structure AppendState where
  cache : List (Key × Option CardJs)
  batch : List Entry
  store : List Entry
  processed : Nat
  calls : List (Key × Bool)
  warnings : Nat
  skippedUnits : Nat
deriving DecidableEq

/-- `DBManager.add_entries`: a batch insert inside one transaction; the
store receives the chunk's entries in order. -/
def add_entries (store : List Entry) (entries : List Entry) : List Entry :=
  store ++ entries

/-- Python dict `cache.get(key)`: `none` for an absent key and for a
stored null alike. -/
def cacheGet (c : List (Key × Option CardJs)) (k : Key) : Option CardJs :=
  match lookupKey c k with
  | none => none
  | some v => v

/-- Appending one draft to `batch`, flushing to the store when
`len(batch) >= chunk_size`, and advancing the progress counter. -/
def pushDraft (chunk_size : Nat) (e : Entry) (s : AppendState) : AppendState :=
  let batch1 := s.batch ++ [e]
  if chunk_size ≤ batch1.length then
    { s with batch := [], store := add_entries s.store batch1,
             processed := s.processed + 1 }
  else
    { s with batch := batch1, processed := s.processed + 1 }

/-- The `for _ in range(quantity)` inner loop of `process_append`. -/
def pushDrafts (chunk_size : Nat) (e : Entry) : Nat → AppendState → AppendState
  | 0, s => s
  | q+1, s => pushDrafts chunk_size e q (pushDraft chunk_size e s)

/-- Draft construction and quantity expansion for one row whose fetched
JSON is `js` (`main.py` lines 217-239). -/
def expandRow (pf : String → Option ℚ) (default_location : String)
    (chunk_size : Nat) (key : Key) (js : CardJs) (foil_value : Option String)
    (q : Nat) (s : AppendState) : AppendState :=
  let entry : Entry :=
    { set_code := key.1, collector_number := key.2.1, lang := key.2.2,
      name := js.name, color_identity := js.color_identity,
      price_usd := pick_price_from_json pf js foil_value,
      location := default_location }
  pushDrafts chunk_size entry q s

/-- One iteration of the row loop of `process_append` (`main.py` lines
176-239).  `o k i` is the outcome of the on-demand `scry.get_card` call
for key `k` when `i` such calls were made for `k` before (`none` models
the call raising). -/
def stepRow (pf : String → Option ℚ) (o : Key → Nat → Option CardJs)
    (do_prefetch : Bool) (default_location : String) (chunk_size : Nat)
    (s : AppendState) (cr : Row) : AppendState :=
  let quantity := parse_quantity pf cr.qty
  match cr.set_code, cr.collector_number with
  | some sc, some cn =>
    if sc = "" ∨ cn = "" then { s with warnings := s.warnings + 1 }
    else if quantity ≤ 0 then { s with warnings := s.warnings + 1 }
    else
      let lang := pyor cr.lang ""
      let key : Key := (pystrip sc, pystrip cn, pystrip lang)
      if do_prefetch then
        match cacheGet s.cache key with
        | none =>
          { s with warnings := s.warnings + 1,
                   processed := s.processed + quantity.toNat,
                   skippedUnits := s.skippedUnits + quantity.toNat }
        | some js => expandRow pf default_location chunk_size key js cr.foil quantity.toNat s
      else
        match lookupKey s.cache key with
        | some (some js) => expandRow pf default_location chunk_size key js cr.foil quantity.toNat s
        | some none => s
        | none =>
          match o key (s.calls.countP (fun c => decide (c.1 = key))) with
          | some js =>
            expandRow pf default_location chunk_size key js cr.foil quantity.toNat
              { s with cache := (key, some js) :: s.cache,
                       calls := s.calls ++ [(key, true)] }
          | none =>
            { s with calls := s.calls ++ [(key, false)],
                     warnings := s.warnings + 1,
                     processed := s.processed + quantity.toNat,
                     skippedUnits := s.skippedUnits + quantity.toNat }
  | _, _ => { s with warnings := s.warnings + 1 }

/-- The total quantity computed by `load_csv_rows`. -/
def totalQty (pf : String → Option ℚ) (rows : List Row) : ℤ :=
  rows.foldl (fun acc r => acc + max (parse_quantity pf r.qty) 0) 0

/-- Initial loop state: the cache is the prefetch result when prefetch is
enabled and starts empty otherwise. -/
def initState (do_prefetch : Bool) (prefCache : List (Key × Option CardJs)) :
    AppendState :=
  { cache := if do_prefetch then prefCache else [], batch := [], store := [],
    processed := 0, calls := [], warnings := 0, skippedUnits := 0 }

/-- `process_append` from `main.py`: early return when the total quantity
is zero, otherwise the row loop followed by the final flush.  The final
state's `processed` field is the number printed by the summary line
`"Appended {processed} total entries."`. -/
def process_append (pf : String → Option ℚ) (o : Key → Nat → Option CardJs)
    (do_prefetch : Bool) (prefCache : List (Key × Option CardJs))
    (default_location : String) (chunk_size : Nat) (rows : List Row) :
    AppendState :=
  if totalQty pf rows = 0 then initState do_prefetch prefCache
  else
    let s := rows.foldl (stepRow pf o do_prefetch default_location chunk_size)
      (initState do_prefetch prefCache)
    if s.batch = [] then s
    else { s with store := add_entries s.store s.batch, batch := [] }

/-- The normalized key of a row that survives the identity and quantity
checks of the append loop; `none` when the loop skips the row before any
cache or remote access. -/
def validRowKey (pf : String → Option ℚ) (cr : Row) : Option Key :=
  match cr.set_code, cr.collector_number with
  | some sc, some cn =>
    if sc = "" ∨ cn = "" then none
    else if parse_quantity pf cr.qty ≤ 0 then none
    else some (pystrip sc, pystrip cn, pystrip (pyor cr.lang ""))
  | _, _ => none

/-- `stepRow` factored through `validRowKey`: the shape used by the
invariant proofs below. -/
theorem stepRow_eq (pf : String → Option ℚ) (o : Key → Nat → Option CardJs)
    (dp : Bool) (loc : String) (cs : Nat) (s : AppendState) (cr : Row) :
    stepRow pf o dp loc cs s cr =
      match validRowKey pf cr with
      | none => { s with warnings := s.warnings + 1 }
      | some key =>
        let q := (parse_quantity pf cr.qty).toNat
        if dp then
          match cacheGet s.cache key with
          | none =>
            { s with warnings := s.warnings + 1, processed := s.processed + q,
                     skippedUnits := s.skippedUnits + q }
          | some js => expandRow pf loc cs key js cr.foil q s
        else
          match lookupKey s.cache key with
          | some (some js) => expandRow pf loc cs key js cr.foil q s
          | some none => s
          | none =>
            match o key (s.calls.countP (fun c => decide (c.1 = key))) with
            | some js =>
              expandRow pf loc cs key js cr.foil q
                { s with cache := (key, some js) :: s.cache,
                         calls := s.calls ++ [(key, true)] }
            | none =>
              { s with calls := s.calls ++ [(key, false)],
                       warnings := s.warnings + 1,
                       processed := s.processed + q,
                       skippedUnits := s.skippedUnits + q } := by
  unfold stepRow validRowKey
  cases hsc : cr.set_code with
  | none => cases cr.collector_number <;> rfl
  | some sc =>
    cases hcn : cr.collector_number with
    | none => rfl
    | some cn =>
      by_cases hb : sc = "" ∨ cn = ""
      · simp only [if_pos hb]
      · simp only [if_neg hb]
        by_cases hq : parse_quantity pf cr.qty ≤ 0
        · simp only [if_pos hq]
        · simp only [if_neg hq]

theorem pushDraft_spec (cs : Nat) (e : Entry) (s : AppendState) :
    (pushDraft cs e s).store ++ (pushDraft cs e s).batch = (s.store ++ s.batch) ++ [e]
    ∧ (pushDraft cs e s).processed = s.processed + 1
    ∧ (pushDraft cs e s).cache = s.cache
    ∧ (pushDraft cs e s).calls = s.calls
    ∧ (pushDraft cs e s).warnings = s.warnings
    ∧ (pushDraft cs e s).skippedUnits = s.skippedUnits := by
  unfold pushDraft add_entries
  by_cases h : cs ≤ s.batch.length + 1
  · simp [h, List.append_assoc]
  · simp [h, List.append_assoc]

theorem pushDrafts_spec (cs : Nat) (e : Entry) :
    ∀ (n : Nat) (s : AppendState),
      (pushDrafts cs e n s).store ++ (pushDrafts cs e n s).batch
          = (s.store ++ s.batch) ++ List.replicate n e
      ∧ (pushDrafts cs e n s).processed = s.processed + n
      ∧ (pushDrafts cs e n s).cache = s.cache
      ∧ (pushDrafts cs e n s).calls = s.calls
      ∧ (pushDrafts cs e n s).warnings = s.warnings
      ∧ (pushDrafts cs e n s).skippedUnits = s.skippedUnits := by
  intro n
  induction n with
  | zero => intro s; simp [pushDrafts]
  | succ n ih =>
    intro s
    obtain ⟨h1, h2, h3, h4, h5, h6⟩ := ih (pushDraft cs e s)
    obtain ⟨g1, g2, g3, g4, g5, g6⟩ := pushDraft_spec cs e s
    refine ⟨?_, ?_, ?_, ?_, ?_, ?_⟩
    · show (pushDrafts cs e n (pushDraft cs e s)).store
          ++ (pushDrafts cs e n (pushDraft cs e s)).batch = _
      rw [h1, g1]
      simp [List.replicate_succ, List.append_assoc]
    · show (pushDrafts cs e n (pushDraft cs e s)).processed = _
      rw [h2, g2]; omega
    · show (pushDrafts cs e n (pushDraft cs e s)).cache = _
      rw [h3, g3]
    · show (pushDrafts cs e n (pushDraft cs e s)).calls = _
      rw [h4, g4]
    · show (pushDrafts cs e n (pushDraft cs e s)).warnings = _
      rw [h5, g5]
    · show (pushDrafts cs e n (pushDraft cs e s)).skippedUnits = _
      rw [h6, g6]

/-- The summary invariant: `processed` always equals the drafts in flight
(store plus pending batch) plus the units skipped at the cache-miss /
fetch-failure sites. -/
def processedInv (s : AppendState) : Prop :=
  s.processed = (s.store ++ s.batch).length + s.skippedUnits

theorem stepRow_processedInv (pf : String → Option ℚ) (o : Key → Nat → Option CardJs)
    (dp : Bool) (loc : String) (cs : Nat) (s : AppendState) (cr : Row)
    (h : processedInv s) : processedInv (stepRow pf o dp loc cs s cr) := by
  unfold processedInv at h ⊢
  rw [stepRow_eq]
  cases hv : validRowKey pf cr with
  | none => simpa using h
  | some key =>
    simp only []
    by_cases hdp : dp
    · rw [if_pos hdp]
      cases hc : cacheGet s.cache key with
      | none => dsimp only; omega
      | some js =>
        unfold expandRow
        obtain ⟨h1, h2, _x1, _x2, _x3, h6⟩ :=
          pushDrafts_spec cs _ (parse_quantity pf cr.qty).toNat s
        rw [h2, h6, h1, List.length_append, List.length_replicate]
        omega
    · rw [if_neg hdp]
      cases hl : lookupKey s.cache key with
      | none =>
        cases ho : o key (s.calls.countP (fun c => decide (c.1 = key))) with
        | none => dsimp only; omega
        | some js =>
          unfold expandRow
          obtain ⟨h1, h2, _x1, _x2, _x3, h6⟩ :=
            pushDrafts_spec cs _ (parse_quantity pf cr.qty).toNat
              { s with cache := (key, some js) :: s.cache, calls := s.calls ++ [(key, true)] }
          rw [h2, h6, h1, List.length_append, List.length_replicate]
          dsimp only
          omega
      | some v =>
        cases v with
        | none => exact h
        | some js =>
          unfold expandRow
          obtain ⟨h1, h2, _x1, _x2, _x3, h6⟩ :=
            pushDrafts_spec cs _ (parse_quantity pf cr.qty).toNat s
          rw [h2, h6, h1, List.length_append, List.length_replicate]
          omega

theorem foldl_processedInv (pf : String → Option ℚ) (o : Key → Nat → Option CardJs)
    (dp : Bool) (loc : String) (cs : Nat) :
    ∀ (rows : List Row) (s : AppendState), processedInv s →
      processedInv (rows.foldl (stepRow pf o dp loc cs) s) := by
  intro rows
  induction rows with
  | nil => intro s h; exact h
  | cons r rows ih =>
    intro s h
    exact ih _ (stepRow_processedInv pf o dp loc cs s r h)

/-- C2 (amended): at the summary, the printed count `processed` equals the
number of rows actually inserted into the store plus the quantity units of
rows skipped for cache misses or fetch failures (rows skipped for missing
identity or non-positive quantity contribute nothing); it equals the
inserted count alone only when no such skip happened. -/
theorem appended_count_spec (pf : String → Option ℚ) (o : Key → Nat → Option CardJs)
    (dp : Bool) (pc : List (Key × Option CardJs)) (loc : String) (cs : Nat)
    (rows : List Row) :
    (process_append pf o dp pc loc cs rows).processed
      = (process_append pf o dp pc loc cs rows).store.length
        + (process_append pf o dp pc loc cs rows).skippedUnits := by
  unfold process_append
  by_cases h0 : totalQty pf rows = 0
  · simp [h0, initState]
  · rw [if_neg h0]
    have hinv : processedInv (rows.foldl (stepRow pf o dp loc cs) (initState dp pc)) := by
      apply foldl_processedInv
      simp [processedInv, initState]
    set s := rows.foldl (stepRow pf o dp loc cs) (initState dp pc) with hs
    unfold processedInv at hinv
    by_cases hb : s.batch = []
    · rw [if_pos hb]
      rw [hinv, hb]
      simp
    · rw [if_neg hb]
      rw [hinv]
      simp [add_entries, List.length_append]

/-- C2 (counterexample): a prefetch run over one valid row of quantity 1
whose key failed prefetch (null cache entry) inserts nothing, yet the
summary prints "Appended 1 total entries": the reported count is not the
number of rows actually inserted. -/
theorem appended_count_cex :
    (process_append (fun _ => none) (fun _ _ => none) true
        [(("znr", "1", ""), none)] "bulk" 500
        [⟨some "znr", some "1", none, none, none⟩]).store.length = 0
    ∧ (process_append (fun _ => none) (fun _ _ => none) true
        [(("znr", "1", ""), none)] "bulk" 500
        [⟨some "znr", some "1", none, none, none⟩]).processed = 1
    ∧ ¬ ((process_append (fun _ => none) (fun _ _ => none) true
        [(("znr", "1", ""), none)] "bulk" 500
        [⟨some "znr", some "1", none, none, none⟩]).processed
      = (process_append (fun _ => none) (fun _ _ => none) true
        [(("znr", "1", ""), none)] "bulk" 500
        [⟨some "znr", some "1", none, none, none⟩]).store.length) := by
  refine ⟨?_, ?_, ?_⟩ <;> decide

/-- C1 (counterexample): with prefetch disabled, two rows sharing the
normalized key ("znr","1","") and a remote that always fails produce two
on-demand lookup calls for that key in one run: a failed lookup is not
cached, so the claimed "at most one remote call per unique key regardless
of success or failure" is false. -/
theorem on_demand_dedup_cex :
    (process_append (fun _ => none) (fun _ _ => none) false [] "bulk" 500
        [⟨some "znr", some "1", none, none, none⟩,
         ⟨some "znr", some "1", none, none, none⟩]).calls.countP
      (fun c => decide (c.1 = ("znr", "1", ""))) = 2
    ∧ ¬ ((process_append (fun _ => none) (fun _ _ => none) false [] "bulk" 500
        [⟨some "znr", some "1", none, none, none⟩,
         ⟨some "znr", some "1", none, none, none⟩]).calls.countP
      (fun c => decide (c.1 = ("znr", "1", ""))) ≤ 1) := by
  refine ⟨?_, ?_⟩ <;> decide

/-- Invariant of the on-demand path: the number of successful `get_card`
calls recorded for a key equals 1 exactly when the key is in the cache
(the cache is written only by a successful call, and a cached key is never
fetched again). -/
def callsInv (s : AppendState) : Prop :=
  ∀ k : Key,
    s.calls.countP (fun c => decide (c.1 = k) && c.2)
      = (if (lookupKey s.cache k).isSome then 1 else 0)

theorem stepRow_callsInv (pf : String → Option ℚ) (o : Key → Nat → Option CardJs)
    (loc : String) (cs : Nat) (s : AppendState) (cr : Row) (h : callsInv s) :
    callsInv (stepRow pf o false loc cs s cr)
    ∧ ∀ k : Key,
        (stepRow pf o false loc cs s cr).calls.countP (fun c => decide (c.1 = k))
          ≤ s.calls.countP (fun c => decide (c.1 = k))
            + (if validRowKey pf cr = some k then 1 else 0) := by
  rw [stepRow_eq]
  cases hv : validRowKey pf cr with
  | none =>
    refine ⟨fun k => h k, fun k => ?_⟩
    simp
  | some key =>
    simp only [Bool.false_eq_true, if_false]
    cases hl : lookupKey s.cache key with
    | some v =>
      cases v with
      | none => exact ⟨h, fun k => by simp⟩
      | some js =>
        unfold expandRow
        obtain ⟨_x1, _x2, h3, h4, _x5, _x6⟩ :=
          pushDrafts_spec cs _ (parse_quantity pf cr.qty).toNat s
        refine ⟨fun k => ?_, fun k => ?_⟩
        · rw [h4, h3]; exact h k
        · rw [h4]; simp
    | none =>
      cases ho : o key (s.calls.countP (fun c => decide (c.1 = key))) with
      | some js =>
        unfold expandRow
        obtain ⟨_x1, _x2, h3, h4, _x5, _x6⟩ :=
          pushDrafts_spec cs _ (parse_quantity pf cr.qty).toNat
            { s with cache := (key, some js) :: s.cache,
                     calls := s.calls ++ [(key, true)] }
        refine ⟨fun k => ?_, fun k => ?_⟩
        · rw [h4, h3]
          dsimp only
          rw [List.countP_append]
          by_cases hk : k = key
          · subst hk
            have h0 := h k
            rw [hl] at h0
            simp only [Option.isSome_none, Bool.false_eq_true, if_false] at h0
            simp [lookupKey, h0, List.countP_cons]
          · have hne : key ≠ k := Ne.symm hk
            simp [lookupKey, hne, List.countP_cons, hk]
            exact h k
        · rw [h4]
          dsimp only
          rw [List.countP_append]
          by_cases hk : k = key
          · subst hk; simp [List.countP_cons]
          · simp [List.countP_cons, hk, Ne.symm hk]
      | none =>
        refine ⟨fun k => ?_, fun k => ?_⟩
        · dsimp only
          rw [List.countP_append]
          simp [List.countP_cons]
          exact h k
        · dsimp only
          rw [List.countP_append]
          by_cases hk : k = key
          · subst hk; simp [List.countP_cons]
          · simp [List.countP_cons, hk, Ne.symm hk]

theorem foldl_callsInv (pf : String → Option ℚ) (o : Key → Nat → Option CardJs)
    (loc : String) (cs : Nat) :
    ∀ (rows : List Row) (s : AppendState), callsInv s →
      callsInv (rows.foldl (stepRow pf o false loc cs) s)
      ∧ ∀ k : Key,
          (rows.foldl (stepRow pf o false loc cs) s).calls.countP
              (fun c => decide (c.1 = k))
            ≤ s.calls.countP (fun c => decide (c.1 = k))
              + rows.countP (fun r => decide (validRowKey pf r = some k)) := by
  intro rows
  induction rows with
  | nil => intro s h; exact ⟨h, fun k => by simp⟩
  | cons r rows ih =>
    intro s h
    obtain ⟨hstep, hbound⟩ := stepRow_callsInv pf o loc cs s r h
    obtain ⟨hinv, hb⟩ := ih _ hstep
    refine ⟨hinv, fun k => ?_⟩
    calc (List.foldl (stepRow pf o false loc cs) (stepRow pf o false loc cs s r) rows).calls.countP
          (fun c => decide (c.1 = k))
        ≤ (stepRow pf o false loc cs s r).calls.countP (fun c => decide (c.1 = k))
            + rows.countP (fun r => decide (validRowKey pf r = some k)) := hb k
      _ ≤ s.calls.countP (fun c => decide (c.1 = k))
            + (if validRowKey pf r = some k then 1 else 0)
            + rows.countP (fun r => decide (validRowKey pf r = some k)) := by
          exact Nat.add_le_add_right (hbound k) _
      _ = s.calls.countP (fun c => decide (c.1 = k))
            + (r :: rows).countP (fun r => decide (validRowKey pf r = some k)) := by
          rw [List.countP_cons]
          by_cases hk : validRowKey pf r = some k
          · simp [hk]; omega
          · simp [hk]

/-- C1 (amended): with prefetch disabled, the on-demand fallback makes at
most one SUCCESSFUL remote lookup per unique normalized key per run (a
success is cached and the key is never fetched again), and at most one
lookup call per row bearing the key: a FAILED lookup is not cached, so
later rows sharing the key retry the lookup, up to once per such row. -/
theorem on_demand_calls_spec (pf : String → Option ℚ) (o : Key → Nat → Option CardJs)
    (loc : String) (cs : Nat) (rows : List Row) (k : Key) :
    (process_append pf o false [] loc cs rows).calls.countP
        (fun c => decide (c.1 = k) && c.2) ≤ 1
    ∧ (process_append pf o false [] loc cs rows).calls.countP
        (fun c => decide (c.1 = k))
      ≤ rows.countP (fun r => decide (validRowKey pf r = some k)) := by
  unfold process_append
  by_cases h0 : totalQty pf rows = 0
  · simp [h0, initState]
  · rw [if_neg h0]
    have hinit : callsInv (initState false []) := by
      intro k
      simp [initState, lookupKey]
    obtain ⟨hinv, hb⟩ := foldl_callsInv pf o loc cs rows (initState false []) hinit
    set s := rows.foldl (stepRow pf o false loc cs) (initState false []) with hs
    have hcalls : (if s.batch = [] then s
        else { s with store := add_entries s.store s.batch, batch := [] }).calls = s.calls := by
      by_cases hb2 : s.batch = [] <;> simp [hb2]
    rw [hcalls]
    constructor
    · have := hinv k
      rw [this]
      by_cases hk : (lookupKey s.cache k).isSome <;> simp [hk]
    · have := hb k
      simpa [initState] using this

/-- C5: per-row expansion in a prefetch-mode run.  A row that passes the
identity and quantity checks and whose key has a usable (non-null) cached
record contributes exactly `quantity` drafts, all sharing the same fetched
name, color identity and selected price, and no warning; a row with
missing/blank set code or collector number or non-positive quantity
(`validRowKey = none`), or whose cache entry is null or absent
(`cacheGet = none`), contributes zero drafts and exactly one warning. -/
theorem expansion_spec (pf : String → Option ℚ) (o : Key → Nat → Option CardJs)
    (loc : String) (cs : Nat) (s : AppendState) (cr : Row) :
    (∀ key js, validRowKey pf cr = some key → cacheGet s.cache key = some js →
      (stepRow pf o true loc cs s cr).store ++ (stepRow pf o true loc cs s cr).batch
        = (s.store ++ s.batch)
          ++ List.replicate (parse_quantity pf cr.qty).toNat
              { set_code := key.1, collector_number := key.2.1, lang := key.2.2,
                name := js.name, color_identity := js.color_identity,
                price_usd := pick_price_from_json pf js cr.foil, location := loc }
      ∧ (stepRow pf o true loc cs s cr).warnings = s.warnings)
    ∧ (validRowKey pf cr = none →
      (stepRow pf o true loc cs s cr).store ++ (stepRow pf o true loc cs s cr).batch
        = s.store ++ s.batch
      ∧ (stepRow pf o true loc cs s cr).warnings = s.warnings + 1)
    ∧ (∀ key, validRowKey pf cr = some key → cacheGet s.cache key = none →
      (stepRow pf o true loc cs s cr).store ++ (stepRow pf o true loc cs s cr).batch
        = s.store ++ s.batch
      ∧ (stepRow pf o true loc cs s cr).warnings = s.warnings + 1) := by
  refine ⟨?_, ?_, ?_⟩
  · intro key js hv hc
    rw [stepRow_eq, hv]
    simp only [if_true, hc]
    unfold expandRow
    obtain ⟨h1, _x2, _x3, _x4, h5, _x6⟩ :=
      pushDrafts_spec cs _ (parse_quantity pf cr.qty).toNat s
    exact ⟨h1, h5⟩
  · intro hv
    rw [stepRow_eq, hv]
    exact ⟨rfl, rfl⟩
  · intro key hv hc
    rw [stepRow_eq, hv]
    simp [hc]

/-- Witness for `expansion_spec`: one valid row of quantity 1 with a
cached record yields exactly one draft carrying the fetched fields. -/
theorem expansion_spec_witness :
    validRowKey (fun _ => none) ⟨some "znr", some "1", none, none, none⟩
        = some ("znr", "1", "")
    ∧ cacheGet [(("znr", "1", ""), some ⟨"Bolt", ["R"], ⟨none, none, none⟩⟩)]
        ("znr", "1", "") = some ⟨"Bolt", ["R"], ⟨none, none, none⟩⟩
    ∧ ((stepRow (fun _ => none) (fun _ _ => none) true "bulk" 500
          ⟨[(("znr", "1", ""), some ⟨"Bolt", ["R"], ⟨none, none, none⟩⟩)], [], [], 0, [], 0, 0⟩
          ⟨some "znr", some "1", none, none, none⟩).store
        ++ (stepRow (fun _ => none) (fun _ _ => none) true "bulk" 500
          ⟨[(("znr", "1", ""), some ⟨"Bolt", ["R"], ⟨none, none, none⟩⟩)], [], [], 0, [], 0, 0⟩
          ⟨some "znr", some "1", none, none, none⟩).batch
        = ([] ++ [])
          ++ List.replicate (parse_quantity (fun _ => none)
              (Row.qty ⟨some "znr", some "1", none, none, none⟩)).toNat
              { set_code := ("znr", "1", "").1, collector_number := ("znr", "1", "").2.1,
                lang := ("znr", "1", "").2.2, name := CardJs.name ⟨"Bolt", ["R"], ⟨none, none, none⟩⟩,
                color_identity := CardJs.color_identity ⟨"Bolt", ["R"], ⟨none, none, none⟩⟩,
                price_usd := pick_price_from_json (fun _ => none)
                  ⟨"Bolt", ["R"], ⟨none, none, none⟩⟩
                  (Row.foil ⟨some "znr", some "1", none, none, none⟩),
                location := "bulk" }
        ∧ (stepRow (fun _ => none) (fun _ _ => none) true "bulk" 500
          ⟨[(("znr", "1", ""), some ⟨"Bolt", ["R"], ⟨none, none, none⟩⟩)], [], [], 0, [], 0, 0⟩
          ⟨some "znr", some "1", none, none, none⟩).warnings = 0) := by
  refine ⟨by decide, by decide, ?_⟩
  exact (expansion_spec (fun _ => none) (fun _ _ => none) "bulk" 500
    ⟨[(("znr", "1", ""), some ⟨"Bolt", ["R"], ⟨none, none, none⟩⟩)], [], [], 0, [], 0, 0⟩
    ⟨some "znr", some "1", none, none, none⟩).1
    ("znr", "1", "") ⟨"Bolt", ["R"], ⟨none, none, none⟩⟩ (by decide) (by decide)

/-- Chunk-size bisimulation: two append-loop states that agree on
everything observable except how drafts are split between the pending
batch and the store. -/
def Sim (s1 s2 : AppendState) : Prop :=
  s1.cache = s2.cache ∧ s1.calls = s2.calls ∧ s1.warnings = s2.warnings
  ∧ s1.processed = s2.processed ∧ s1.skippedUnits = s2.skippedUnits
  ∧ s1.store ++ s1.batch = s2.store ++ s2.batch

theorem stepRow_sim (pf : String → Option ℚ) (o : Key → Nat → Option CardJs)
    (dp : Bool) (loc : String) (c1 c2 : Nat) (s1 s2 : AppendState) (cr : Row)
    (h : Sim s1 s2) :
    Sim (stepRow pf o dp loc c1 s1 cr) (stepRow pf o dp loc c2 s2 cr) := by
  obtain ⟨cache1, batch1, store1, p1, calls1, w1, k1⟩ := s1
  obtain ⟨cache2, batch2, store2, p2, calls2, w2, k2⟩ := s2
  obtain ⟨hc, hl, hw, hp, hk, hs⟩ := h
  dsimp only at hc hl hw hp hk hs
  subst hc; subst hl; subst hw; subst hp; subst hk
  rw [stepRow_eq, stepRow_eq]
  cases hv : validRowKey pf cr with
  | none => exact ⟨rfl, rfl, rfl, rfl, rfl, hs⟩
  | some key =>
    simp only []
    by_cases hdp : dp
    · rw [if_pos hdp, if_pos hdp]
      cases hcg : cacheGet cache1 key with
      | none => exact ⟨rfl, rfl, rfl, rfl, rfl, hs⟩
      | some js =>
        unfold expandRow
        obtain ⟨a1, a2, a3, a4, a5, a6⟩ := pushDrafts_spec c1
          (⟨key.1, key.2.1, key.2.2, js.name, js.color_identity,
            pick_price_from_json pf js cr.foil, loc⟩ : Entry)
          (parse_quantity pf cr.qty).toNat ⟨cache1, batch1, store1, p1, calls1, w1, k1⟩
        obtain ⟨b1, b2, b3, b4, b5, b6⟩ := pushDrafts_spec c2
          (⟨key.1, key.2.1, key.2.2, js.name, js.color_identity,
            pick_price_from_json pf js cr.foil, loc⟩ : Entry)
          (parse_quantity pf cr.qty).toNat ⟨cache1, batch2, store2, p1, calls1, w1, k1⟩
        refine ⟨?_, ?_, ?_, ?_, ?_, ?_⟩ <;>
          simp_all
    · rw [if_neg hdp, if_neg hdp]
      cases hlk : lookupKey cache1 key with
      | some v =>
        cases v with
        | none => exact ⟨rfl, rfl, rfl, rfl, rfl, hs⟩
        | some js =>
          unfold expandRow
          obtain ⟨a1, a2, a3, a4, a5, a6⟩ := pushDrafts_spec c1
            (⟨key.1, key.2.1, key.2.2, js.name, js.color_identity,
              pick_price_from_json pf js cr.foil, loc⟩ : Entry)
            (parse_quantity pf cr.qty).toNat ⟨cache1, batch1, store1, p1, calls1, w1, k1⟩
          obtain ⟨b1, b2, b3, b4, b5, b6⟩ := pushDrafts_spec c2
            (⟨key.1, key.2.1, key.2.2, js.name, js.color_identity,
              pick_price_from_json pf js cr.foil, loc⟩ : Entry)
            (parse_quantity pf cr.qty).toNat ⟨cache1, batch2, store2, p1, calls1, w1, k1⟩
          refine ⟨?_, ?_, ?_, ?_, ?_, ?_⟩ <;>
            simp_all
      | none =>
        cases ho : o key (calls1.countP (fun c => decide (c.1 = key))) with
        | some js =>
          unfold expandRow
          obtain ⟨a1, a2, a3, a4, a5, a6⟩ := pushDrafts_spec c1
            (⟨key.1, key.2.1, key.2.2, js.name, js.color_identity,
              pick_price_from_json pf js cr.foil, loc⟩ : Entry)
            (parse_quantity pf cr.qty).toNat
            ⟨(key, some js) :: cache1, batch1, store1, p1, calls1 ++ [(key, true)], w1, k1⟩
          obtain ⟨b1, b2, b3, b4, b5, b6⟩ := pushDrafts_spec c2
            (⟨key.1, key.2.1, key.2.2, js.name, js.color_identity,
              pick_price_from_json pf js cr.foil, loc⟩ : Entry)
            (parse_quantity pf cr.qty).toNat
            ⟨(key, some js) :: cache1, batch2, store2, p1, calls1 ++ [(key, true)], w1, k1⟩
          refine ⟨?_, ?_, ?_, ?_, ?_, ?_⟩ <;>
            simp_all
        | none => exact ⟨rfl, rfl, rfl, rfl, rfl, hs⟩

theorem foldl_sim (pf : String → Option ℚ) (o : Key → Nat → Option CardJs)
    (dp : Bool) (loc : String) (c1 c2 : Nat) :
    ∀ (rows : List Row) (s1 s2 : AppendState), Sim s1 s2 →
      Sim (rows.foldl (stepRow pf o dp loc c1) s1)
        (rows.foldl (stepRow pf o dp loc c2) s2) := by
  intro rows
  induction rows with
  | nil => intro s1 s2 h; exact h
  | cons r rows ih =>
    intro s1 s2 h
    exact ih _ _ (stepRow_sim pf o dp loc c1 c2 s1 s2 r h)

theorem process_append_batch_nil (pf : String → Option ℚ)
    (o : Key → Nat → Option CardJs) (dp : Bool)
    (pc : List (Key × Option CardJs)) (loc : String) (cs : Nat) (rows : List Row) :
    (process_append pf o dp pc loc cs rows).batch = [] := by
  unfold process_append
  by_cases h0 : totalQty pf rows = 0
  · simp [h0, initState]
  · rw [if_neg h0]
    by_cases hb : (rows.foldl (stepRow pf o dp loc cs) (initState dp pc)).batch = []
    · simp [hb]
    · simp [hb]

theorem process_append_store_eq (pf : String → Option ℚ)
    (o : Key → Nat → Option CardJs) (dp : Bool)
    (pc : List (Key × Option CardJs)) (loc : String) (cs : Nat) (rows : List Row)
    (h0 : ¬ totalQty pf rows = 0) :
    (process_append pf o dp pc loc cs rows).store
      = (rows.foldl (stepRow pf o dp loc cs) (initState dp pc)).store
        ++ (rows.foldl (stepRow pf o dp loc cs) (initState dp pc)).batch := by
  unfold process_append
  rw [if_neg h0]
  by_cases hb : (rows.foldl (stepRow pf o dp loc cs) (initState dp pc)).batch = []
  · simp [hb]
  · simp [hb, add_entries]

/-- C6: for the same inputs, running the append pipeline with any two
positive chunk sizes commits exactly the same list of rows to the store
(hence the same multiset, independently of store-assigned ids), and in
both runs the final partial chunk has been flushed (the pending batch is
empty at the end). -/
theorem chunking_spec (pf : String → Option ℚ) (o : Key → Nat → Option CardJs)
    (dp : Bool) (pc : List (Key × Option CardJs)) (loc : String) (rows : List Row)
    (c1 c2 : Nat) (_h1 : 1 ≤ c1) (_h2 : 1 ≤ c2) :
    (process_append pf o dp pc loc c1 rows).store
      = (process_append pf o dp pc loc c2 rows).store
    ∧ (process_append pf o dp pc loc c1 rows).batch = []
    ∧ (process_append pf o dp pc loc c2 rows).batch = [] := by
  refine ⟨?_, process_append_batch_nil pf o dp pc loc c1 rows,
    process_append_batch_nil pf o dp pc loc c2 rows⟩
  have hsim : Sim (rows.foldl (stepRow pf o dp loc c1) (initState dp pc))
      (rows.foldl (stepRow pf o dp loc c2) (initState dp pc)) :=
    foldl_sim pf o dp loc c1 c2 rows _ _ ⟨rfl, rfl, rfl, rfl, rfl, rfl⟩
  by_cases h0 : totalQty pf rows = 0
  · unfold process_append
    rw [if_pos h0, if_pos h0]
  · rw [process_append_store_eq pf o dp pc loc c1 rows h0,
      process_append_store_eq pf o dp pc loc c2 rows h0]
    exact hsim.2.2.2.2.2

/-- Witness for `chunking_spec`: chunk sizes 1 and 1000 agree on a small
concrete run. -/
theorem chunking_spec_witness :
    (1 : Nat) ≤ 1 ∧ (1 : Nat) ≤ 1000
    ∧ ((process_append (fun _ => none) (fun _ _ => none) true
          [(("znr", "1", ""), some ⟨"Bolt", ["R"], ⟨none, none, none⟩⟩)] "bulk" 1
          [⟨some "znr", some "1", none, none, none⟩]).store
        = (process_append (fun _ => none) (fun _ _ => none) true
          [(("znr", "1", ""), some ⟨"Bolt", ["R"], ⟨none, none, none⟩⟩)] "bulk" 1000
          [⟨some "znr", some "1", none, none, none⟩]).store
      ∧ (process_append (fun _ => none) (fun _ _ => none) true
          [(("znr", "1", ""), some ⟨"Bolt", ["R"], ⟨none, none, none⟩⟩)] "bulk" 1
          [⟨some "znr", some "1", none, none, none⟩]).batch = []
      ∧ (process_append (fun _ => none) (fun _ _ => none) true
          [(("znr", "1", ""), some ⟨"Bolt", ["R"], ⟨none, none, none⟩⟩)] "bulk" 1000
          [⟨some "znr", some "1", none, none, none⟩]).batch = []) := by
  refine ⟨by decide, by decide, ?_⟩
  exact chunking_spec (fun _ => none) (fun _ _ => none) true
    [(("znr", "1", ""), some ⟨"Bolt", ["R"], ⟨none, none, none⟩⟩)] "bulk"
    [⟨some "znr", some "1", none, none, none⟩] 1 1000 (by decide) (by decide)

/-! ## `db_manager.py` first-match deletion and the `process_remove` loop -/

/-- One persisted inventory row of the `cards` table. -/
structure InvRow where
  id : Nat
  set_code : String
  collector_number : String
  lang : Option String
  name : String
  color_identity : String
  price_usd : Option ℚ
  location : String
deriving DecidableEq

/-- The WHERE clause of `remove_first_matching`: `set_code = ?` and
`collector_number = ?`, plus `lang IS NULL OR lang = ''` when the language
parameter is null or empty, else `lang = ?`. -/
def rowMatches (sc cn : String) (lang : Option String) (r : InvRow) : Bool :=
  decide (r.set_code = sc) && decide (r.collector_number = cn) &&
    (match lang with
     | none => decide (r.lang = none) || decide (r.lang = some "")
     | some l =>
       if l = "" then decide (r.lang = none) || decide (r.lang = some "")
       else decide (r.lang = some l))

/-- `SELECT id FROM cards WHERE ... ORDER BY id ASC LIMIT 1`: the matching
row with the least id. -/
def minMatch (p : InvRow → Bool) : List InvRow → Option InvRow
  | [] => none
  | r :: rs =>
    match minMatch p rs with
    | none => if p r then some r else none
    | some m => if p r then (if r.id ≤ m.id then some r else some m) else some m

/-- `DBManager.remove_first_matching`: select the lowest-id matching row,
then `DELETE FROM cards WHERE id = ?`; returns the deleted id (`none` when
nothing matches) together with the table contents afterwards. -/
def remove_first_matching (db : List InvRow) (sc cn : String)
    (lang : Option String) : Option Nat × List InvRow :=
  match minMatch (rowMatches sc cn lang) db with
  | none => (none, db)
  | some m => (some m.id, db.filter (fun r => decide (r.id ≠ m.id)))

/-- Log events of the per-row removal loop in `process_remove`: a
successful delete, the "No match found" info line (first attempt found
nothing), and the "Stopped after removing n entries (no more matches)"
info line. -/
inductive RemEvent where
  | removed : Nat → RemEvent
  | noMatch : RemEvent
  | stopped : Nat → RemEvent
deriving DecidableEq

/-- The `for _ in range(quantity)` loop of `process_remove` for one row
(`main.py` lines 281-296): returns the table after the loop, the final
`removed_for_row` counter, and the log events in order.  `rfr` is the
value of `removed_for_row` on entry (0 at the call site). -/
def removeLoop (sc cn : String) (lang : Option String) :
    Nat → List InvRow → Nat → List InvRow × Nat × List RemEvent
  | 0, db, rfr => (db, rfr, [])
  | q+1, db, rfr =>
    match remove_first_matching db sc cn lang with
    | (some i, db1) =>
      let r := removeLoop sc cn lang q db1 (rfr + 1)
      (r.1, r.2.1, RemEvent.removed i :: r.2.2)
    | (none, _) =>
      (db, rfr, [if rfr = 0 then RemEvent.noMatch else RemEvent.stopped rfr])

/-- The language argument `process_remove` passes to the delete:
`(lang or "").strip() if lang else None`. -/
def removeLangArg (lang : Option String) : Option String :=
  match lang with
  | none => none
  | some l => if l = "" then none else some (pystrip l)

theorem minMatch_none_iff (p : InvRow → Bool) :
    ∀ db : List InvRow, minMatch p db = none ↔ ∀ r ∈ db, ¬ p r := by
  intro db
  induction db with
  | nil => simp [minMatch]
  | cons r rs ih =>
    simp only [minMatch]
    cases hrs : minMatch p rs with
    | none =>
      by_cases hp : p r
      · simp [hp]
      · simp only [hp, if_false]
        simp only [List.mem_cons]
        constructor
        · intro _ x hx
          rcases hx with hx | hx
          · subst hx; simp [hp]
          · exact (ih.mp hrs) x hx
        · intro _; rfl
    | some m =>
      by_cases hp : p r
      · constructor
        · intro h; simp [hp] at h
          split at h <;> cases h
        · intro h
          exact absurd (by simpa using h r (by simp)) (by simp [hp])
      · constructor
        · intro h; simp [hp] at h
        · intro h
          have : ∀ x ∈ rs, ¬ p x := fun x hx => h x (by simp [hx])
          rw [ih.mpr this] at hrs
          cases hrs

theorem minMatch_spec (p : InvRow → Bool) :
    ∀ (db : List InvRow) (m : InvRow), minMatch p db = some m →
      m ∈ db ∧ p m = true ∧ ∀ r ∈ db, p r = true → m.id ≤ r.id := by
  intro db
  induction db with
  | nil => intro m h; simp [minMatch] at h
  | cons r rs ih =>
    intro m h
    simp only [minMatch] at h
    cases hrs : minMatch p rs with
    | none =>
      rw [hrs] at h
      by_cases hp : p r
      · rw [if_pos hp] at h
        injection h with h
        subst h
        refine ⟨by simp, hp, ?_⟩
        intro x hx hpx
        rcases List.mem_cons.mp hx with hx | hx
        · subst hx; exact le_rfl
        · exact absurd hpx (by simpa using (minMatch_none_iff p rs).mp hrs x hx)
      · rw [if_neg hp] at h; cases h
    | some m0 =>
      rw [hrs] at h
      dsimp only at h
      obtain ⟨hm1, hm2, hm3⟩ := ih m0 hrs
      by_cases hp : p r
      · rw [if_pos hp] at h
        by_cases hle : r.id ≤ m0.id
        · rw [if_pos hle] at h
          injection h with h
          subst h
          refine ⟨by simp, hp, ?_⟩
          intro x hx hpx
          rcases List.mem_cons.mp hx with hx | hx
          · subst hx; exact le_rfl
          · exact le_trans hle (hm3 x hx hpx)
        · rw [if_neg hle] at h
          injection h with h
          subst h
          refine ⟨by simp [hm1], hm2, ?_⟩
          intro x hx hpx
          rcases List.mem_cons.mp hx with hx | hx
          · subst hx; omega
          · exact hm3 x hx hpx
      · rw [if_neg hp] at h
        injection h with h
        subst h
        refine ⟨by simp [hm1], hm2, ?_⟩
        intro x hx hpx
        rcases List.mem_cons.mp hx with hx | hx
        · subst hx; exact absurd hpx (by simpa using hp)
        · exact hm3 x hx hpx

theorem removeLoop_spec (sc cn : String) (lang : Option String) :
    ∀ (q : Nat) (db : List InvRow) (rfr : Nat),
      (db.map (fun r => r.id)).Nodup →
      db.countP (rowMatches sc cn lang) < q →
      ∃ ids : List Nat,
        removeLoop sc cn lang q db rfr
          = (db.filter (fun r => !(rowMatches sc cn lang r)),
             rfr + db.countP (rowMatches sc cn lang),
             ids.map RemEvent.removed
               ++ [if rfr + db.countP (rowMatches sc cn lang) = 0 then RemEvent.noMatch
                   else RemEvent.stopped (rfr + db.countP (rowMatches sc cn lang))])
        ∧ List.Pairwise (· < ·) ids
        ∧ ids.Perm ((db.filter (rowMatches sc cn lang)).map (fun r => r.id)) := by
  intro q
  induction q with
  | zero => intro db rfr hnd hlt; omega
  | succ q ih =>
    intro db rfr hnd hlt
    by_cases hM : db.countP (rowMatches sc cn lang) = 0
    · have hall : ∀ r ∈ db, ¬ rowMatches sc cn lang r := by
        intro r hr
        have := List.countP_eq_zero.mp hM r hr
        simpa using this
      have hnone : minMatch (rowMatches sc cn lang) db = none :=
        (minMatch_none_iff _ db).mpr hall
      refine ⟨[], ?_, List.Pairwise.nil, ?_⟩
      · simp only [removeLoop, remove_first_matching, hnone, hM]
        have hfe : db.filter (fun r => !(rowMatches sc cn lang r)) = db := by
          rw [List.filter_eq_self]
          intro a ha
          simpa using hall a ha
        rw [hfe]
        simp
      · have : db.filter (rowMatches sc cn lang) = [] := by
          rw [List.filter_eq_nil_iff]
          intro a ha
          simpa using hall a ha
        simp [this]
    · have hsome : ∃ m, minMatch (rowMatches sc cn lang) db = some m := by
        cases h : minMatch (rowMatches sc cn lang) db with
        | none =>
          exact absurd (List.countP_eq_zero.mpr (by
            intro r hr
            simpa using (minMatch_none_iff _ db).mp h r hr)) hM
        | some m => exact ⟨m, rfl⟩
      obtain ⟨m, hm⟩ := hsome
      obtain ⟨hmem, hpm, hmin⟩ := minMatch_spec _ db m hm
      obtain ⟨l1, l2, hsplit⟩ := List.append_of_mem hmem
      subst hsplit
      have hndid : ((l1 ++ m :: l2).map (fun r => r.id)).Nodup := hnd
      rw [List.map_append, List.map_cons] at hndid
      have hid1 : ∀ r ∈ l1, r.id ≠ m.id := by
        intro r hr hc
        have h1 := (List.nodup_append.mp hndid).2.2
        exact h1 (List.mem_map_of_mem _ hr) (by simp [hc])
      have hid2 : ∀ r ∈ l2, r.id ≠ m.id := by
        intro r hr hc
        have h1 := (List.nodup_append.mp hndid).2.1
        rw [List.nodup_cons] at h1
        exact h1.1 (by rw [← hc]; exact List.mem_map_of_mem _ hr)
      have hdel : (l1 ++ m :: l2).filter (fun r => decide (r.id ≠ m.id)) = l1 ++ l2 := by
        have e1 : l1.filter (fun r => decide (r.id ≠ m.id)) = l1 :=
          List.filter_eq_self.mpr (fun a ha => by simpa using hid1 a ha)
        have e2 : l2.filter (fun r => decide (r.id ≠ m.id)) = l2 :=
          List.filter_eq_self.mpr (fun a ha => by simpa using hid2 a ha)
        rw [List.filter_append, List.filter_cons, e1, e2]
        simp
      have hsub : List.Sublist ((l1 ++ l2).map (fun r => r.id))
          ((l1 ++ m :: l2).map (fun r => r.id)) := by
        apply List.Sublist.map
        exact (List.sublist_cons_self m l2).append_left l1
      have hnd1 : ((l1 ++ l2).map (fun r => r.id)).Nodup := hnd.sublist hsub
      have hcnt : (l1 ++ m :: l2).countP (rowMatches sc cn lang)
          = (l1 ++ l2).countP (rowMatches sc cn lang) + 1 := by
        simp [List.countP_append, List.countP_cons, hpm]
        omega
      obtain ⟨ids1, heq1, hpw1, hperm1⟩ := ih (l1 ++ l2) (rfr + 1) hnd1 (by omega)
      refine ⟨m.id :: ids1, ?_, ?_, ?_⟩
      · simp only [removeLoop, remove_first_matching, hm, hdel, heq1]
        have hfix : (l1 ++ l2).filter (fun r => !(rowMatches sc cn lang r))
            = (l1 ++ m :: l2).filter (fun r => !(rowMatches sc cn lang r)) := by
          rw [List.filter_append, List.filter_append, List.filter_cons]
          simp [hpm]
        rw [hfix]
        have hc2 : rfr + 1 + (l1 ++ l2).countP (rowMatches sc cn lang)
            = rfr + (l1 ++ m :: l2).countP (rowMatches sc cn lang) := by omega
        rw [hc2]
        have hpos : rfr + (l1 ++ m :: l2).countP (rowMatches sc cn lang) ≠ 0 := by omega
        simp [hpos]
      · rw [List.pairwise_cons]
        refine ⟨?_, hpw1⟩
        intro i hi
        have : i ∈ ((l1 ++ l2).filter (rowMatches sc cn lang)).map (fun r => r.id) :=
          hperm1.mem_iff.mp hi
        obtain ⟨r, hr, hrid⟩ := List.mem_map.mp this
        have hrmem := List.mem_filter.mp hr
        have hrin : r ∈ l1 ++ m :: l2 := by
          rcases List.mem_append.mp hrmem.1 with h | h
          · exact List.mem_append.mpr (Or.inl h)
          · exact List.mem_append.mpr (Or.inr (List.mem_cons_of_mem m h))
        have hle := hmin r hrin hrmem.2
        have hne : r.id ≠ m.id := by
          rcases List.mem_append.mp hrmem.1 with h | h
          · exact hid1 r h
          · exact hid2 r h
        omega
      · have hstep : ((l1 ++ m :: l2).filter (rowMatches sc cn lang)).map (fun r => r.id)
            = (l1.filter (rowMatches sc cn lang)).map (fun r => r.id)
              ++ m.id :: (l2.filter (rowMatches sc cn lang)).map (fun r => r.id) := by
          rw [List.filter_append, List.filter_cons]
          simp [hpm]
        rw [hstep]
        have h1 : (m.id :: ids1).Perm
            (m.id :: ((l1 ++ l2).filter (rowMatches sc cn lang)).map (fun r => r.id)) :=
          hperm1.cons m.id
        refine h1.trans ?_
        rw [List.filter_append, List.map_append]
        exact List.perm_middle.symm

/-- C7: for a removal row with resolved quantity `Q` greater than the
number `M` of matching stored rows, the per-row loop attempts first-match
deletes strictly sequentially, deletes exactly the `M` matching rows
(leaving every other row untouched), and the `(M+1)`-th attempt logs the
stop event — the "No match found" line when `M = 0`, the
"... (no more matches)" line otherwise — after which no further deletes
are attempted for the row.  The deleted ids are emitted in strictly
increasing order and are exactly the ids of the matching rows, because
each delete takes the lowest-id matching row; and a null and an empty
language argument select the same rows (both match stored rows whose
language is null or empty). -/
theorem removal_spec (db : List InvRow) (sc cn : String) (lang : Option String)
    (Q : Nat) (hnd : (db.map (fun r => r.id)).Nodup)
    (hlt : db.countP (rowMatches sc cn lang) < Q) :
    (∃ ids : List Nat,
      removeLoop sc cn lang Q db 0
        = (db.filter (fun r => !(rowMatches sc cn lang r)),
           db.countP (rowMatches sc cn lang),
           ids.map RemEvent.removed
             ++ [if db.countP (rowMatches sc cn lang) = 0 then RemEvent.noMatch
                 else RemEvent.stopped (db.countP (rowMatches sc cn lang))])
      ∧ List.Pairwise (· < ·) ids
      ∧ ids.Perm ((db.filter (rowMatches sc cn lang)).map (fun r => r.id))
      ∧ ids.length = db.countP (rowMatches sc cn lang))
    ∧ (∀ (db2 : List InvRow) (m : InvRow),
        minMatch (rowMatches sc cn lang) db2 = some m →
          m ∈ db2 ∧ rowMatches sc cn lang m
          ∧ ∀ r ∈ db2, rowMatches sc cn lang r → m.id ≤ r.id)
    ∧ (∀ db2 : List InvRow,
        remove_first_matching db2 sc cn (some "") = remove_first_matching db2 sc cn none) := by
  refine ⟨?_, ?_, ?_⟩
  · obtain ⟨ids, heq, hpw, hperm⟩ := removeLoop_spec sc cn lang Q db 0 hnd hlt
    refine ⟨ids, by simpa using heq, hpw, hperm, ?_⟩
    rw [hperm.length_eq, List.length_map, ← List.countP_eq_length_filter]
  · exact fun db2 m h => minMatch_spec _ db2 m h
  · intro db2
    have : rowMatches sc cn (some "") = rowMatches sc cn none := by
      funext r
      simp [rowMatches]
    rw [remove_first_matching, remove_first_matching, this]

/-- Witness for `removal_spec`: removing 3 units from a table with 2
matching rows (ids 1 and 2, one null-language and one empty-language) and
1 non-matching row. -/
theorem removal_spec_witness :
    (([⟨1, "znr", "1", none, "Bolt", "R", none, "bulk"⟩,
       ⟨2, "znr", "1", some "", "Bolt", "R", none, "bulk"⟩,
       ⟨3, "abc", "9", none, "Other", "", none, "bulk"⟩] : List InvRow).map
        (fun r => r.id)).Nodup
    ∧ ([⟨1, "znr", "1", none, "Bolt", "R", none, "bulk"⟩,
        ⟨2, "znr", "1", some "", "Bolt", "R", none, "bulk"⟩,
        ⟨3, "abc", "9", none, "Other", "", none, "bulk"⟩] : List InvRow).countP
        (rowMatches "znr" "1" none) < 3
    ∧ ((∃ ids : List Nat,
        removeLoop "znr" "1" none 3
            [⟨1, "znr", "1", none, "Bolt", "R", none, "bulk"⟩,
             ⟨2, "znr", "1", some "", "Bolt", "R", none, "bulk"⟩,
             ⟨3, "abc", "9", none, "Other", "", none, "bulk"⟩] 0
          = (([⟨1, "znr", "1", none, "Bolt", "R", none, "bulk"⟩,
              ⟨2, "znr", "1", some "", "Bolt", "R", none, "bulk"⟩,
              ⟨3, "abc", "9", none, "Other", "", none, "bulk"⟩] : List InvRow).filter
                (fun r => !(rowMatches "znr" "1" none r)),
             ([⟨1, "znr", "1", none, "Bolt", "R", none, "bulk"⟩,
              ⟨2, "znr", "1", some "", "Bolt", "R", none, "bulk"⟩,
              ⟨3, "abc", "9", none, "Other", "", none, "bulk"⟩] : List InvRow).countP
                (rowMatches "znr" "1" none),
             ids.map RemEvent.removed
               ++ [if ([⟨1, "znr", "1", none, "Bolt", "R", none, "bulk"⟩,
                    ⟨2, "znr", "1", some "", "Bolt", "R", none, "bulk"⟩,
                    ⟨3, "abc", "9", none, "Other", "", none, "bulk"⟩] : List InvRow).countP
                      (rowMatches "znr" "1" none) = 0 then RemEvent.noMatch
                   else RemEvent.stopped (([⟨1, "znr", "1", none, "Bolt", "R", none, "bulk"⟩,
                    ⟨2, "znr", "1", some "", "Bolt", "R", none, "bulk"⟩,
                    ⟨3, "abc", "9", none, "Other", "", none, "bulk"⟩] : List InvRow).countP
                      (rowMatches "znr" "1" none))])
        ∧ List.Pairwise (· < ·) ids
        ∧ ids.Perm ((([⟨1, "znr", "1", none, "Bolt", "R", none, "bulk"⟩,
            ⟨2, "znr", "1", some "", "Bolt", "R", none, "bulk"⟩,
            ⟨3, "abc", "9", none, "Other", "", none, "bulk"⟩] : List InvRow).filter
              (rowMatches "znr" "1" none)).map (fun r => r.id))
        ∧ ids.length = ([⟨1, "znr", "1", none, "Bolt", "R", none, "bulk"⟩,
            ⟨2, "znr", "1", some "", "Bolt", "R", none, "bulk"⟩,
            ⟨3, "abc", "9", none, "Other", "", none, "bulk"⟩] : List InvRow).countP
              (rowMatches "znr" "1" none))
      ∧ (∀ (db2 : List InvRow) (m : InvRow),
          minMatch (rowMatches "znr" "1" none) db2 = some m →
            m ∈ db2 ∧ rowMatches "znr" "1" none m
            ∧ ∀ r ∈ db2, rowMatches "znr" "1" none r → m.id ≤ r.id)
      ∧ (∀ db2 : List InvRow,
          remove_first_matching db2 "znr" "1" (some "")
            = remove_first_matching db2 "znr" "1" none)) := by
  refine ⟨by decide, by decide, ?_⟩
  exact removal_spec
    [⟨1, "znr", "1", none, "Bolt", "R", none, "bulk"⟩,
     ⟨2, "znr", "1", some "", "Bolt", "R", none, "bulk"⟩,
     ⟨3, "abc", "9", none, "Other", "", none, "bulk"⟩]
    "znr" "1" none 3 (by decide) (by decide)

/-! ## `scripts/update_prices.py` -/

/-- The Scryfall price field chosen by `--price-field`. -/
inductive PriceField where
  | usd : PriceField
  | usd_foil : PriceField
  | usd_etched : PriceField
deriving DecidableEq

/-- `prices.get(price_field)`. -/
def priceFieldGet (p : Prices) : PriceField → Option PVal
  | .usd => p.usd
  | .usd_foil => p.usd_foil
  | .usd_etched => p.usd_etched

/-- `select_price_from_json` from `update_prices.py`: `None` for a falsy
json, else the chosen field put through the same raw-value step as the
ingest path (`None`/""/"null" and parse failures give `None`). -/
def select_price_from_json (pf : String → Option ℚ) (js : Option Prices)
    (price_field : PriceField) : Option ℚ :=
  match js with
  | none => none
  | some prices => priceToFloat pf (priceFieldGet prices price_field)

/-- Outcome of the per-row Scryfall fetch in the refresh loop: `err`
models `get_card` raising (the row is skipped), `ok js` a returned value
(`ok none` models a falsy json). -/
inductive FetchOutcome where
  | err : FetchOutcome
  | ok : Option Prices → FetchOutcome

/-- The `(new_price, new_location, id)` update the refresh loop queues for
a row, or `none` when the row is skipped (fetch failure) or its old and
new prices (nulls compared as 0) do not cross the 5.0 threshold.  The
fetch oracle is keyed by the row id. -/
def updateForRow (pf : String → Option ℚ) (fetch : Nat → FetchOutcome)
    (price_field : PriceField) (r : InvRow) : Option (Option ℚ × String × Nat) :=
  match fetch r.id with
  | .err => none
  | .ok js =>
    let new_val := select_price_from_json pf js price_field
    let old_cmp : ℚ := match r.price_usd with | none => 0 | some v => v
    let new_cmp : ℚ := match new_val with | none => 0 | some v => v
    if 5 ≤ old_cmp ∧ new_cmp < 5 then some (new_val, "bulk", r.id)
    else if old_cmp < 5 ∧ 5 ≤ new_cmp then some (new_val, "bulk", r.id)
    else none

/-- The row-level effect of `UPDATE cards SET price_usd = ?, location = ?
WHERE id = ?` on one stored row. -/
def applyOne (r : InvRow) (u : Option ℚ × String × Nat) : InvRow :=
  if r.id = u.2.2 then { r with price_usd := u.1, location := u.2.1 } else r

/-- One `UPDATE` statement applied to the whole table. -/
def applyUpdate (db : List InvRow) (u : Option ℚ × String × Nat) : List InvRow :=
  db.map (fun r => applyOne r u)

/-- `run_update` from `update_prices.py` (non-dry-run): queue an update for
every threshold-crossing row and apply them all with `executemany`.  The
`chunk_size` batching only groups the updates into transactions and does
not change the final table contents, so the model applies the queued
updates in order. -/
def run_update (pf : String → Option ℚ) (fetch : Nat → FetchOutcome)
    (price_field : PriceField) (db : List InvRow) : List InvRow :=
  (db.filterMap (updateForRow pf fetch price_field)).foldl applyUpdate db

theorem foldl_applyUpdate (us : List (Option ℚ × String × Nat)) :
    ∀ db : List InvRow,
      us.foldl applyUpdate db = db.map (fun r => us.foldl applyOne r) := by
  induction us with
  | nil =>
    intro db
    simp [List.foldl]
  | cons u us ih =>
    intro db
    rw [List.foldl_cons, ih]
    unfold applyUpdate
    rw [List.map_map]
    apply List.map_congr_left
    intro a _
    simp [Function.comp]

theorem foldl_applyOne_of_ne (r : InvRow) :
    ∀ us : List (Option ℚ × String × Nat),
      (∀ u ∈ us, u.2.2 ≠ r.id) → us.foldl applyOne r = r := by
  intro us
  induction us with
  | nil => intro _; rfl
  | cons u us ih =>
    intro h
    rw [List.foldl_cons]
    have hne : u.2.2 ≠ r.id := h u (by simp)
    have : applyOne r u = r := by
      unfold applyOne
      rw [if_neg (fun hc => hne hc.symm)]
    rw [this]
    exact ih (fun v hv => h v (by simp [hv]))

theorem updateForRow_some (pf : String → Option ℚ) (fetch : Nat → FetchOutcome)
    (price_field : PriceField) (r : InvRow) (u : Option ℚ × String × Nat)
    (h : updateForRow pf fetch price_field r = some u) :
    u.2.1 = "bulk" ∧ u.2.2 = r.id := by
  unfold updateForRow at h
  cases hf : fetch r.id with
  | err => rw [hf] at h; cases h
  | ok js =>
    rw [hf] at h
    dsimp only at h
    split at h
    · injection h with h; subst h; exact ⟨rfl, rfl⟩
    · split at h
      · injection h with h; subst h; exact ⟨rfl, rfl⟩
      · cases h

/-- C10: the price-refresh job.  Under distinct row ids, the final table
is the input table with each row transformed independently: a row whose
fetch failed or whose old and new prices (nulls compared as 0) do not
cross the fixed 5.0 threshold is completely unchanged, and a crossing row
changes only its `price_usd` (to the newly selected price) and `location`
fields.  Every location the job writes is exactly "bulk", including on
upward crossings (never "binder" or "personal"), and an update is queued
for a fetched row exactly when the old and new prices lie on opposite
sides of the threshold. -/
theorem price_refresh_spec (pf : String → Option ℚ) (fetch : Nat → FetchOutcome)
    (price_field : PriceField) (db : List InvRow)
    (hnd : (db.map (fun r => r.id)).Nodup) :
    run_update pf fetch price_field db
      = db.map (fun r =>
          match updateForRow pf fetch price_field r with
          | none => r
          | some u => { r with price_usd := u.1, location := u.2.1 })
    ∧ (∀ u ∈ db.filterMap (updateForRow pf fetch price_field), u.2.1 = "bulk")
    ∧ (∀ r : InvRow, fetch r.id = FetchOutcome.err →
        updateForRow pf fetch price_field r = none)
    ∧ (∀ (r : InvRow) (js : Option Prices), fetch r.id = FetchOutcome.ok js →
        ((updateForRow pf fetch price_field r).isSome ↔
          ((5 ≤ r.price_usd.getD 0
              ∧ (select_price_from_json pf js price_field).getD 0 < 5)
           ∨ (r.price_usd.getD 0 < 5
              ∧ 5 ≤ (select_price_from_json pf js price_field).getD 0)))) := by
  refine ⟨?_, ?_, ?_, ?_⟩
  · unfold run_update
    rw [foldl_applyUpdate]
    apply List.map_congr_left
    intro r hr
    obtain ⟨d1, d2, hsplit⟩ := List.append_of_mem hr
    subst hsplit
    have hndid : ((d1 ++ r :: d2).map (fun x => x.id)).Nodup := hnd
    rw [List.map_append, List.map_cons] at hndid
    have hid1 : ∀ x ∈ d1, x.id ≠ r.id := by
      intro x hx hc
      have h1 := (List.nodup_append.mp hndid).2.2
      exact h1 (List.mem_map_of_mem _ hx) (by simp [hc])
    have hid2 : ∀ x ∈ d2, x.id ≠ r.id := by
      intro x hx hc
      have h1 := (List.nodup_append.mp hndid).2.1
      rw [List.nodup_cons] at h1
      exact h1.1 (by rw [← hc]; exact List.mem_map_of_mem _ hx)
    have hu1 : ∀ u ∈ d1.filterMap (updateForRow pf fetch price_field), u.2.2 ≠ r.id := by
      intro u hu
      obtain ⟨x, hx, hfx⟩ := List.mem_filterMap.mp hu
      rw [(updateForRow_some pf fetch price_field x u hfx).2]
      exact hid1 x hx
    have hu2 : ∀ u ∈ d2.filterMap (updateForRow pf fetch price_field), u.2.2 ≠ r.id := by
      intro u hu
      obtain ⟨x, hx, hfx⟩ := List.mem_filterMap.mp hu
      rw [(updateForRow_some pf fetch price_field x u hfx).2]
      exact hid2 x hx
    rw [List.filterMap_append, List.filterMap_cons]
    cases hfr : updateForRow pf fetch price_field r with
    | none =>
      rw [List.foldl_append]
      rw [foldl_applyOne_of_ne r _ hu1, foldl_applyOne_of_ne r _ hu2]
    | some u =>
      rw [List.foldl_append, List.foldl_cons]
      rw [foldl_applyOne_of_ne r _ hu1]
      have happ : applyOne r u = { r with price_usd := u.1, location := u.2.1 } := by
        unfold applyOne
        rw [if_pos (updateForRow_some pf fetch price_field r u hfr).2.symm]
      rw [happ]
      exact foldl_applyOne_of_ne _ _ hu2
  · intro u hu
    obtain ⟨x, _hx, hfx⟩ := List.mem_filterMap.mp hu
    exact (updateForRow_some pf fetch price_field x u hfx).1
  · intro r hf
    unfold updateForRow
    rw [hf]
  · intro r js hf
    unfold updateForRow
    rw [hf]
    dsimp only
    have hold : (match r.price_usd with | none => (0 : ℚ) | some v => v)
        = r.price_usd.getD 0 := by
      cases r.price_usd <;> rfl
    have hnew : (match select_price_from_json pf js price_field with
        | none => (0 : ℚ) | some v => v)
        = (select_price_from_json pf js price_field).getD 0 := by
      cases select_price_from_json pf js price_field <;> rfl
    rw [hold, hnew]
    split
    · simp only [Option.isSome_some, true_iff]
      left; assumption
    · split
      · simp only [Option.isSome_some, true_iff]
        right; assumption
      · simp only [Option.isSome_none, Bool.false_eq_true, false_iff]
        intro hc
        rcases hc with hc | hc
        · exact absurd hc (by assumption)
        · exact absurd hc (by assumption)

/-- Witness for `price_refresh_spec`: a two-row table with distinct ids,
one fetch failing and one succeeding. -/
theorem price_refresh_spec_witness :
    (([⟨1, "znr", "1", none, "Bolt", "R", some 10, "binder"⟩,
       ⟨2, "abc", "9", none, "Other", "", none, "bulk"⟩] : List InvRow).map
        (fun r => r.id)).Nodup
    ∧ (run_update (fun _ => none)
          (fun i => if i = 1 then FetchOutcome.ok (some ⟨some (PVal.pnum 1), none, none⟩)
                    else FetchOutcome.err) PriceField.usd
          [⟨1, "znr", "1", none, "Bolt", "R", some 10, "binder"⟩,
           ⟨2, "abc", "9", none, "Other", "", none, "bulk"⟩]
        = ([⟨1, "znr", "1", none, "Bolt", "R", some 10, "binder"⟩,
            ⟨2, "abc", "9", none, "Other", "", none, "bulk"⟩] : List InvRow).map
            (fun r =>
              match updateForRow (fun _ => none)
                  (fun i => if i = 1 then FetchOutcome.ok (some ⟨some (PVal.pnum 1), none, none⟩)
                            else FetchOutcome.err) PriceField.usd r with
              | none => r
              | some u => { r with price_usd := u.1, location := u.2.1 })) := by
  refine ⟨by decide, ?_⟩
  exact (price_refresh_spec (fun _ => none)
    (fun i => if i = 1 then FetchOutcome.ok (some ⟨some (PVal.pnum 1), none, none⟩)
              else FetchOutcome.err) PriceField.usd
    [⟨1, "znr", "1", none, "Bolt", "R", some 10, "binder"⟩,
     ⟨2, "abc", "9", none, "Other", "", none, "bulk"⟩] (by decide)).1

end MTG
